import Mathlib

/-!
Shallow embedding of the `measured` metrics core (crates `core/src/lib.rs`,
`core/src/metric/histogram.rs`, `core/src/metric/name.rs`).

Modelling conventions:
* `f64` values are modelled by `ℚ` (exact rationals).  The superseded flat
  histogram in `lib.rs` stores `f64::INFINITY` as a threshold, so for that
  module `f64` is modelled by `F64`, rationals extended with a positive
  infinity.  `NaN` is outside the model.
* `u64` counters are modelled by `ℕ`; wrap-around (`% 2 ^ 64`) is made
  explicit where the claims talk about it (the counter hot path).
* A Rust operation that can abort at runtime (a failed `assert`, an index out
  of bounds, an arithmetic-overflow abort, an `unwrap` of `None`) is modelled
  as an `Option`- or `Except`-returning function, `none`/`.error` marking the
  abort.
* `slice::partition_point` is a stdlib binary search; it is modelled by its
  documented specification: the index of the first element for which the
  predicate fails (predicates used by the code are antitone on the sorted
  threshold arrays, for which the two agree).
-/

/-- Model of `slice::partition_point(pred)`: number of leading elements
satisfying `pred` (the index of the first element of the second partition). -/
def partitionPoint {α : Type} (p : α → Bool) (l : List α) : Nat :=
  (l.takeWhile p).length

/-- Model of `AtomicU64::fetch_update` on an `f64`-bits cell (sequential
semantics): apply the closure to the current value; `none` if the closure
returns `None` (in which case the caller's `unwrap`/`expect` aborts). -/
def fetchUpdate (f : ℚ → Option ℚ) (v : ℚ) : Option ℚ := f v

/-- `HistogramStateInner<N>` from `core/src/metric/histogram.rs`:
`N` bucket hit counters, an overflow counter `inf`, and the bit-encoded
floating sum (modelled directly as the rational it encodes).
`N` is recovered as `buckets.length`. -/
structure HistogramStateInner where
  buckets : List Nat
  inf : Nat
  sum : ℚ
deriving DecidableEq, Repr

/-- `HistogramStateInner::observe(bucket, x)`:
`assert bucket <= N`; if `bucket < N` add 1 to `buckets[bucket]`, else add 1
to `inf`; then CAS-update the sum with the closure `v ↦ some (v + x)` and
`unwrap` the result.  `none` models an abort. -/
def HistogramStateInner.observe (st : HistogramStateInner) (bucket : Nat) (x : ℚ) :
    Option HistogramStateInner :=
  if bucket ≤ st.buckets.length then
    let st1 :=
      if bucket < st.buckets.length then
        { st with buckets := st.buckets.set bucket (st.buckets.getD bucket 0 + 1) }
      else
        { st with inf := st.inf + 1 }
    match fetchUpdate (fun v => some (v + x)) st1.sum with
    | some s => some { st1 with sum := s }
    | none => none
  else none

/-- `HistogramStateInner::observe_mut(bucket, x)`:
same assertion and bucket/overflow increment through `get_mut`, then the sum
is read and written back directly (no CAS). -/
def HistogramStateInner.observe_mut (st : HistogramStateInner) (bucket : Nat) (x : ℚ) :
    Option HistogramStateInner :=
  if bucket ≤ st.buckets.length then
    let st1 :=
      if bucket < st.buckets.length then
        { st with buckets := st.buckets.set bucket (st.buckets.getD bucket 0 + 1) }
      else
        { st with inf := st.inf + 1 }
    let v := st1.sum
    some { st1 with sum := v + x }
  else none

/-- The bucket selection `self.1.le.partition_point(|le| x > *le)` performed
by `HistogramRef::observe` / `HistogramMut::observe`. -/
def bucketIndex (le : List ℚ) (x : ℚ) : Nat :=
  partitionPoint (fun t => decide (t < x)) le

/-- `HistogramRef::observe(x)` (shared access, `core/src/metric/histogram.rs`):
select the bucket by partition point over the thresholds, then
`HistogramStateInner::observe`. -/
def HistogramRef.observe (le : List ℚ) (st : HistogramStateInner) (x : ℚ) :
    Option HistogramStateInner :=
  st.observe (bucketIndex le x) x

/-- `HistogramMut::observe(x)` (exclusive access): same bucket selection, then
`HistogramStateInner::observe_mut`. -/
def HistogramMut.observe (le : List ℚ) (st : HistogramStateInner) (x : ℚ) :
    Option HistogramStateInner :=
  st.observe_mut (bucketIndex le x) x

/-- `Thresholds::<N>::exponential_buckets(start, factor)` from
`core/src/metric/histogram.rs`: abort (`none`) unless `start > 0` and
`factor > 1`; otherwise `le[i] = start * factor.powi(i)`. -/
def Thresholds.exponential_buckets (N : Nat) (start factor : ℚ) : Option (List ℚ) :=
  if start ≤ 0 then none
  else if factor ≤ 1 then none
  else some ((List.range N).map fun i => start * factor ^ i)

/-- `Thresholds::<N>::linear_buckets(start, width)`: abort unless `width > 0`;
otherwise `le[i] = start + width * i`. -/
def Thresholds.linear_buckets (N : Nat) (start width : ℚ) : Option (List ℚ) :=
  if width ≤ 0 then none
  else some ((List.range N).map fun i => start + width * (i : ℚ))

/-- `Thresholds::<N>::with_buckets(buckets)`: `for i in 0..N - 1` assert
`buckets[i] < buckets[i + 1]`.  For `N = 0` the expression `N - 1` underflows
`usize` (and in release profile the wrapped range immediately indexes out of
bounds), so construction aborts; this is the `l.length = 0 → none` branch. -/
def Thresholds.with_buckets (l : List ℚ) : Option (List ℚ) :=
  match l.length with
  | 0 => none
  | Nat.succ m =>
    if (List.range m).all (fun i => decide (l.getD i 0 < l.getD (i + 1) 0)) then
      some l
    else none

/-- `CounterRef::inc` / `CounterRef::inc_by` call sequences, from
`core/src/lib.rs`. -/
inductive CounterOp where
  | inc : CounterOp
  | inc_by (n : Nat) : CounterOp
deriving DecidableEq, Repr

/-- One `fetch_add` step of the counter: `inc` adds 1, `inc_by n` adds `n`,
with `u64` wrap-around. -/
def CounterState.apply (c : Nat) : CounterOp → Nat
  | .inc => (c + 1) % 2 ^ 64
  | .inc_by n => (c + n) % 2 ^ 64

/-- Apply a sequence of counter operations starting from `c`. -/
def CounterState.applyOps (c : Nat) (ops : List CounterOp) : Nat :=
  ops.foldl CounterState.apply c

/-- Number of `inc()` calls in a sequence. -/
def CounterOp.incCount (ops : List CounterOp) : Nat :=
  ops.countP fun op => match op with | .inc => true | .inc_by _ => false

/-- Sum of all `n` arguments passed to `inc_by` in a sequence. -/
def CounterOp.incBySum (ops : List CounterOp) : Nat :=
  (ops.map fun op => match op with | .inc => 0 | .inc_by n => n).sum

/-- `InvalidMetricName` from `core/src/metric/name.rs`. -/
inductive InvalidMetricName where
  | InvalidChars : InvalidMetricName
  | Empty : InvalidMetricName
  | StartsWithNumber : InvalidMetricName
deriving DecidableEq, Repr

/-- The byte class accepted by the validator's match arm
`b'0'..=b'9' | b'A'..=b'Z' | b'a'..=b'z' | b'-' | b'_' | b':'`
(note: it includes the hyphen). -/
def validNameChar (c : Char) : Bool :=
  ('0' ≤ c && c ≤ '9') || ('A' ≤ c && c ≤ 'Z') || ('a' ≤ c && c ≤ 'z') ||
    c = '-' || c = '_' || c = ':'

/-- `TryFrom<&str> for &CheckedMetricName` (`core/src/metric/name.rs`):
empty input is `Empty`; then every byte must be in `validNameChar`, else
`InvalidChars`; then a leading ASCII digit is `StartsWithNumber`; otherwise
the name is accepted unchanged. -/
def CheckedMetricName.tryFrom (s : List Char) :
    Except InvalidMetricName (List Char) :=
  match s with
  | [] => .error .Empty
  | c :: rest =>
    if (c :: rest).all validNameChar then
      if c.isDigit then .error .StartsWithNumber
      else .ok (c :: rest)
    else .error .InvalidChars

/-- The semantic suffixes `Total`, `Count`, `Sum`, `Bucket` of
`core/src/metric/name.rs`. -/
inductive NameSuffix where
  | Total : NameSuffix
  | Count : NameSuffix
  | Sum : NameSuffix
  | Bucket : NameSuffix
deriving DecidableEq, Repr

/-- `Suffix::encode_text`: append the suffix bytes to the buffer. -/
def NameSuffix.encode_text : NameSuffix → String → String
  | .Total, b => b ++ "_total"
  | .Count, b => b ++ "_count"
  | .Sum, b => b ++ "_sum"
  | .Bucket, b => b ++ "_bucket"

/-- A composable metric name: a validated base string, possibly wrapped by
`WithNamespace` and `WithSuffix` combinators (`core/src/metric/name.rs`). -/
inductive NameExpr where
  | base (s : String) : NameExpr
  | withNamespace (ns : String) (n : NameExpr) : NameExpr
  | withSuffix (sfx : NameSuffix) (n : NameExpr) : NameExpr
deriving DecidableEq, Repr

/-- `MetricName::encode_text` into a byte buffer `b`:
a `CheckedMetricName` appends its own bytes; `WithNamespace` appends the
namespace, then `"_"`, then the inner name; `WithSuffix` appends the inner
name, then the suffix. -/
def NameExpr.encode_text : NameExpr → String → String
  | .base s, b => b ++ s
  | .withNamespace ns n, b => n.encode_text ((b ++ ns) ++ "_")
  | .withSuffix sfx n, b => sfx.encode_text (n.encode_text b)

/-- Model of `f64` for the superseded flat histogram of `core/src/lib.rs`,
whose `exponential_buckets` stores `f64::INFINITY` as the last threshold:
a rational or positive infinity. -/
inductive F64 where
  | fin (q : ℚ) : F64
  | inf : F64
deriving DecidableEq, Repr

/-- The `<` comparison on `F64` (total on the NaN-free model). -/
def F64.blt : F64 → F64 → Bool
  | .fin a, .fin b => decide (a < b)
  | .fin _, .inf => true
  | .inf, _ => false

/-- `f64` addition on the model (no finite value cancels an infinity). -/
def F64.add : F64 → F64 → F64
  | .fin a, .fin b => .fin (a + b)
  | _, _ => .inf

/-- `HistogramState<N>` from `core/src/lib.rs` (the superseded flat design):
`N` bucket counters, a total `count`, and the bit-encoded floating `sum`. -/
structure LibHistogramState where
  buckets : List Nat
  count : Nat
  sum : F64
deriving DecidableEq, Repr

/-- `HistogramRef::observe(x)` from `core/src/lib.rs`:
`for i in 0..N: if x < le[i] then buckets[i] += 1`, then `count += 1`, then
CAS-update the sum with `y ↦ some (y + x)` and `expect` the result. -/
def LibHistogramState.observe (le : List F64) (st : LibHistogramState) (x : F64) :
    Option LibHistogramState :=
  let buckets := List.zipWith (fun b t => if F64.blt x t then b + 1 else b) st.buckets le
  match (fun y => some (F64.add y x) : F64 → Option F64) st.sum with
  | some s => some { buckets := buckets, count := st.count + 1, sum := s }
  | none => none

/-- `Thresholds::<N>::exponential_buckets(start, factor)` from
`core/src/lib.rs`: abort (`none`) unless `start > 0` and `factor > 1`;
otherwise iterate `next *= factor` giving `le[i] = start * factor^i`, and
finally overwrite `le[N - 1]` with `f64::INFINITY`. -/
def LibThresholds.exponential_buckets (N : Nat) (start factor : ℚ) :
    Option (List F64) :=
  if start ≤ 0 then none
  else if factor ≤ 1 then none
  else some ((((List.range N).map fun i => F64.fin (start * factor ^ i))).set (N - 1) F64.inf)

/-- `text::MetricValue`: integer or floating sample value (`as i64` casts of
the `u64` counters are exact for counts below `2^63`, which the model
assumes). -/
inductive MetricValue where
  | int (n : Int) : MetricValue
  | float (v : F64) : MetricValue
deriving DecidableEq, Repr

/-- One record handed to the text encoder by `write_metric`: the name suffix
used, the optional synthetic `le` label, and the value. -/
structure TextRecord where
  sfx : NameSuffix
  le : Option F64
  value : MetricValue
deriving DecidableEq, Repr

/-- `MetricEncoder::collect_into` for `HistogramState<N>` in
`core/src/lib.rs`: for each `i < N` emit a `_bucket` record with label
`le = le[i]` and value `buckets[i]`; then a `_sum` record with the floating
sum; then a `_count` record with `count`. -/
def LibHistogramState.collect_into (le : List F64) (st : LibHistogramState) :
    List TextRecord :=
  (List.zipWith (fun t b => TextRecord.mk .Bucket (some t) (.int (Int.ofNat b))) le st.buckets)
    ++ [TextRecord.mk .Sum none (.float st.sum),
        TextRecord.mk .Count none (.int (Int.ofNat st.count))]

/-- `entry(index).or_default()` on the sparse map (`hashbrown` entry API under
the write lock): insert a default entry only if none is present. -/
def entryOrDefault {M : Type} (d : M) (m : Nat → Option M) (id : Nat) :
    Nat → Option M :=
  match m id with
  | some _ => m
  | none => fun u => if u = id then some d else m u

/-- `MetricVec::get_metric(id, f)` on the sparse representation
(`core/src/lib.rs`): optimistic read; if present, call `f` with the entry;
otherwise insert-if-absent under the write lock, re-read, `unwrap`, and call
`f`.  Returns the callback result and the resulting stored map; `none`
models the (unreachable) `unwrap` abort. -/
def MetricVec.getMetricSparse {M R : Type} (d : M) (m : Nat → Option M)
    (id : Nat) (f : M → R) : Option (R × (Nat → Option M)) :=
  match m id with
  | some e => some (f e, m)
  | none =>
    let m1 := entryOrDefault d m id
    match m1 id with
    | some e => some (f e, m1)
    | none => none

/-! Helper lemmas about `takeWhile` (used to reason about the partition-point
model) and about `List.set`. -/

/-- A take-while prefix is no longer than the list. -/
theorem takeWhile_length_le {α : Type} (p : α → Bool) (l : List α) :
    (l.takeWhile p).length ≤ l.length := by
  induction l with
  | nil => simp
  | cons a t ih =>
    rw [List.takeWhile_cons]
    by_cases hp : p a
    · simp [hp]; omega
    · simp [hp]

/-- Every position strictly before the take-while length satisfies the
predicate. -/
theorem takeWhile_pred_true {α : Type} (p : α → Bool) (l : List α) (d : α) :
    ∀ j, j < (l.takeWhile p).length → p (l.getD j d) = true := by
  induction l with
  | nil => simp
  | cons a t ih =>
    intro j hj
    rw [List.takeWhile_cons] at hj
    by_cases hp : p a
    · rw [if_pos hp] at hj
      cases j with
      | zero => simpa using hp
      | succ j =>
        simp only [List.length_cons, Nat.succ_lt_succ_iff] at hj
        simpa using ih j hj
    · rw [if_neg hp] at hj
      simp at hj

/-- The position right after the take-while prefix (when it exists) fails the
predicate. -/
theorem takeWhile_pred_false {α : Type} (p : α → Bool) (l : List α) (d : α)
    (h : (l.takeWhile p).length < l.length) :
    p (l.getD (l.takeWhile p).length d) = false := by
  induction l with
  | nil => simp at h
  | cons a t ih =>
    by_cases hp : p a
    · rw [List.takeWhile_cons, if_pos hp] at h ⊢
      simp only [List.length_cons, Nat.succ_lt_succ_iff] at h
      simpa using ih h
    · rw [List.takeWhile_cons, if_neg hp] at h ⊢
      simpa using hp

/-- `getD` after `set`, both indices in bounds. -/
theorem getD_set {α : Type} (l : List α) (i j : Nat) (v d : α)
    (hi : i < l.length) (hj : j < l.length) :
    (l.set i v).getD j d = if j = i then v else l.getD j d := by
  induction l generalizing i j with
  | nil => simp at hi
  | cons a t ih =>
    cases i with
    | zero =>
      cases j with
      | zero => simp
      | succ j => simp
    | succ i =>
      cases j with
      | zero => simp
      | succ j =>
        simp only [List.length_cons, Nat.succ_lt_succ_iff] at hi hj
        simpa [Nat.succ_inj] using ih i j hi hj

/-- Counter fold generalized over the starting value. -/
theorem applyOps_eq_add (ops : List CounterOp) :
    ∀ c, c < 2 ^ 64 →
      CounterState.applyOps c ops =
        (c + CounterOp.incCount ops + CounterOp.incBySum ops) % 2 ^ 64 := by
  induction ops with
  | nil =>
    intro c hc
    simp only [CounterState.applyOps, List.foldl_nil, CounterOp.incCount,
      CounterOp.incBySum, List.countP_nil, List.map_nil, List.sum_nil]
    omega
  | cons op ops ih =>
    intro c hc
    cases op with
    | inc =>
      have h1 : CounterState.applyOps c (CounterOp.inc :: ops) =
          CounterState.applyOps ((c + 1) % 2 ^ 64) ops := rfl
      have h2 : CounterOp.incCount (CounterOp.inc :: ops) =
          CounterOp.incCount ops + 1 := by
        simp [CounterOp.incCount, List.countP_cons]
      have h3 : CounterOp.incBySum (CounterOp.inc :: ops) =
          CounterOp.incBySum ops := by
        simp [CounterOp.incBySum]
      rw [h1, ih _ (Nat.mod_lt _ (by norm_num)), h2, h3]
      omega
    | inc_by n =>
      have h1 : CounterState.applyOps c (CounterOp.inc_by n :: ops) =
          CounterState.applyOps ((c + n) % 2 ^ 64) ops := rfl
      have h2 : CounterOp.incCount (CounterOp.inc_by n :: ops) =
          CounterOp.incCount ops := by
        simp [CounterOp.incCount, List.countP_cons]
      have h3 : CounterOp.incBySum (CounterOp.inc_by n :: ops) =
          n + CounterOp.incBySum ops := by
        simp [CounterOp.incBySum]
      rw [h1, ih _ (Nat.mod_lt _ (by norm_num)), h2, h3]
      omega

/-- C3: for every sequence of `inc()` and `inc_by(n)` calls applied to a
counter starting at zero, the final value equals the number of `inc()` calls
plus the sum of all `inc_by` arguments, with 64-bit wrap-around. -/
theorem counter_sums_increments (ops : List CounterOp) :
    CounterState.applyOps 0 ops =
      (CounterOp.incCount ops + CounterOp.incBySum ops) % 2 ^ 64 := by
  simpa using applyOps_eq_add ops 0 (by norm_num)

/-- C8: name composition by deferred concatenation: the base name
`http_requests` with the `Total` suffix encodes exactly the bytes
`http_requests_total`; wrapped in namespace `myapp` and then the `Count`
suffix it encodes exactly `myapp_http_requests_count`. -/
theorem name_composition_concat :
    NameExpr.encode_text (.withSuffix .Total (.base "http_requests")) "" =
        "http_requests_total" ∧
      NameExpr.encode_text
          (.withSuffix .Count (.withNamespace "myapp" (.base "http_requests"))) "" =
        "myapp_http_requests_count" := by
  constructor <;> rfl

/-- C7 (divergence witness): the runtime validator accepts the hyphen, which
is outside the claim's character class of ASCII letters, digits, underscore
and colon (the code's own comment and abort message also exclude it); on the
input `a-b` the code succeeds where the claim requires `InvalidChars`.  The
claim's four stated examples do hold. -/
theorem tryFrom_accepts_hyphen :
    CheckedMetricName.tryFrom "a-b".data = .ok "a-b".data ∧
      validNameChar '-' = true ∧
      CheckedMetricName.tryFrom "".data = .error .Empty ∧
      CheckedMetricName.tryFrom "1abc".data = .error .StartsWithNumber ∧
      CheckedMetricName.tryFrom "a$b".data = .error .InvalidChars ∧
      CheckedMetricName.tryFrom "abc_123:x".data = .ok "abc_123:x".data := by
  refine ⟨?_, ?_, ?_, ?_, ?_, ?_⟩ <;> rfl

/-- C2 (divergence witness): thresholds built by the `lib.rs`
`exponential_buckets(1, 2)` with `N = 2` are `[1, +inf]`; after a single
`observe(1.0)` the collector reports the `le = 1` bucket as `0`, although
exactly one observation is less than or equal to `1`: the stored per-bucket
counts use the strict comparison `x < le[i]`, so an observation equal to a
finite threshold is excluded from that threshold's `le` bucket. -/
theorem lib_collect_excludes_equal_observation :
    LibThresholds.exponential_buckets 2 1 2 = some [F64.fin 1, F64.inf] ∧
      LibHistogramState.observe [F64.fin 1, F64.inf]
          (LibHistogramState.mk [0, 0] 0 (F64.fin 0)) (F64.fin 1) =
        some (LibHistogramState.mk [0, 1] 1 (F64.fin 1)) ∧
      LibHistogramState.collect_into [F64.fin 1, F64.inf]
          (LibHistogramState.mk [0, 1] 1 (F64.fin 1)) =
        [TextRecord.mk .Bucket (some (F64.fin 1)) (.int 0),
         TextRecord.mk .Bucket (some F64.inf) (.int 1),
         TextRecord.mk .Sum none (.float (F64.fin 1)),
         TextRecord.mk .Count none (.int 1)] ∧
      (1 : ℚ) ≤ 1 := by
  refine ⟨?_, ?_, rfl, le_refl 1⟩
  · have h1 : ¬ ((1 : ℚ) ≤ 0) := by norm_num
    have h2 : ¬ ((2 : ℚ) ≤ 1) := by norm_num
    simp only [LibThresholds.exponential_buckets, if_neg h1, if_neg h2]
    norm_num [List.range_succ]
  · simp only [LibHistogramState.observe, List.zipWith, F64.blt, F64.add]
    norm_num

/-- C5 (counterexample): `with_buckets` on the empty array aborts (`0..N - 1`
underflows for `N = 0`) even though the empty array is strictly increasing,
so "panics if and only if the array is not strictly increasing" fails at the
explicit input `[]`. -/
theorem with_buckets_empty_aborts :
    Thresholds.with_buckets ([] : List ℚ) = none ∧
      List.Chain' (fun a b : ℚ => a < b) ([] : List ℚ) :=
  ⟨rfl, List.chain'_nil⟩

/-- The validation loop of `with_buckets` checks exactly strict ascent. -/
theorem all_range_iff_chain (l : List ℚ) :
    ((List.range (l.length - 1)).all
        (fun i => decide (l.getD i 0 < l.getD (i + 1) 0)) = true) ↔
      List.Chain' (fun a b : ℚ => a < b) l := by
  rw [List.all_eq_true, List.chain'_iff_get]
  constructor
  · intro h i hi
    have h2 := h i (List.mem_range.mpr hi)
    rw [decide_eq_true_eq] at h2
    rw [List.getD_eq_getElem l 0 (by omega), List.getD_eq_getElem l 0 (by omega)] at h2
    simpa using h2
  · intro h i hi
    have hi2 := List.mem_range.mp hi
    rw [decide_eq_true_eq]
    rw [List.getD_eq_getElem l 0 (by omega), List.getD_eq_getElem l 0 (by omega)]
    simpa using h i hi2

/-- C5 (amended): construction fails fast exactly on invalid parameters:
`exponential_buckets` aborts iff `start <= 0` or `factor <= 1`;
`linear_buckets` aborts iff `width <= 0`; `with_buckets` aborts iff the array
is empty (the `0..N - 1` underflow for `N = 0`) or not strictly increasing;
in every other case a `Thresholds` value is produced; in particular
`[5.0, 3.0]` fails. -/
theorem thresholds_fail_fast (N : Nat) (start factor width : ℚ) (l : List ℚ) :
    (Thresholds.exponential_buckets N start factor = none ↔
        start ≤ 0 ∨ factor ≤ 1) ∧
      (Thresholds.linear_buckets N start width = none ↔ width ≤ 0) ∧
      (Thresholds.with_buckets l = none ↔
        (l = [] ∨ ¬ List.Chain' (fun a b : ℚ => a < b) l)) ∧
      Thresholds.with_buckets [(5 : ℚ), 3] = none := by
  refine ⟨?_, ?_, ?_, ?_⟩
  · by_cases h1 : start ≤ 0
    · simp [Thresholds.exponential_buckets, h1]
    · by_cases h2 : factor ≤ 1 <;>
        simp [Thresholds.exponential_buckets, h1, h2]
  · by_cases h : width ≤ 0 <;> simp [Thresholds.linear_buckets, h]
  · cases l with
    | nil => simp [Thresholds.with_buckets]
    | cons a t =>
      have hne : (a :: t) ≠ [] := by simp
      have hiff := all_range_iff_chain (a :: t)
      simp only [List.length_cons, Nat.add_sub_cancel] at hiff
      have hdef : Thresholds.with_buckets (a :: t) =
          (if (List.range t.length).all
              (fun i => decide ((a :: t).getD i 0 < (a :: t).getD (i + 1) 0))
            then some (a :: t) else none) := rfl
      rw [hdef]
      by_cases hall : (List.range t.length).all
          (fun i => decide ((a :: t).getD i 0 < (a :: t).getD (i + 1) 0)) = true
      · rw [if_pos hall]
        constructor
        · intro h
          exact absurd h (by simp)
        · rintro (h | h)
          · exact absurd h hne
          · exact absurd (hiff.mp hall) h
      · rw [if_neg hall]
        constructor
        · intro _
          exact Or.inr fun hch => hall (hiff.mpr hch)
        · intro _
          rfl
  · have h53 : ¬ ((5 : ℚ) < 3) := by norm_num
    have hdef : Thresholds.with_buckets [(5 : ℚ), 3] =
        (if (List.range 1).all
            (fun i => decide (([(5 : ℚ), 3]).getD i 0 < ([(5 : ℚ), 3]).getD (i + 1) 0))
          then some [(5 : ℚ), 3] else none) := rfl
    rw [hdef]
    rw [if_neg]
    simp [List.range, List.range.loop, h53]

/-- C6: `exponential_buckets(1, 2)` with `N = 4` yields `[1, 2, 4, 8]`, and
in general for valid `start` and `factor` the `i`-th produced threshold is
`start * factor ^ i` for every `i < N` (canonical
`core/src/metric/histogram.rs` constructor). -/
theorem exponential_buckets_formula :
    Thresholds.exponential_buckets 4 1 2 = some [1, 2, 4, 8] ∧
      ∀ (N : Nat) (start factor : ℚ), 0 < start → 1 < factor →
        ∀ i, i < N →
          ((Thresholds.exponential_buckets N start factor).getD []).getD i 0 =
            start * factor ^ i := by
  constructor
  · have h1 : ¬ ((1 : ℚ) ≤ 0) := by norm_num
    have h2 : ¬ ((2 : ℚ) ≤ 1) := by norm_num
    simp only [Thresholds.exponential_buckets, if_neg h1, if_neg h2]
    norm_num [List.range_succ]
  · intro N start factor h1 h2 i hi
    have hval : Thresholds.exponential_buckets N start factor =
        some ((List.range N).map fun i => start * factor ^ i) := by
      simp only [Thresholds.exponential_buckets,
        if_neg (not_le.mpr h1), if_neg (not_le.mpr h2)]
    rw [hval, Option.getD_some,
      List.getD_eq_getElem _ _ (by simpa using hi)]
    simp

/-- C6 witness: the general formula applied at `N = 4`, `start = 1`,
`factor = 2`, `i = 2`. -/
theorem exponential_buckets_formula_witness :
    (0 : ℚ) < 1 ∧ (1 : ℚ) < 2 ∧
      ((Thresholds.exponential_buckets 4 1 2).getD []).getD 2 0 =
        1 * 2 ^ 2 :=
  ⟨by norm_num, by norm_num,
    exponential_buckets_formula.2 4 1 2 (by norm_num) (by norm_num) 2
      (by norm_num)⟩

/-- C4: sparse `MetricVec::get_metric(id, f)`: if an entry for `id` exists,
`f` is applied to it and the stored map is unchanged; if absent, exactly one
default-initialized entry for `id` is inserted and `f` is applied to it; and
no call ever removes or overwrites an existing entry, so the set of stored
identities only grows. -/
theorem getMetricSparse_spec {M R : Type} (d : M) (m : Nat → Option M)
    (id : Nat) (f : M → R) :
    (∀ e, m id = some e → MetricVec.getMetricSparse d m id f = some (f e, m)) ∧
      (m id = none →
        MetricVec.getMetricSparse d m id f =
          some (f d, fun u => if u = id then some d else m u)) ∧
      (∀ r m', MetricVec.getMetricSparse d m id f = some (r, m') →
        ∀ u e, m u = some e → m' u = some e) := by
  refine ⟨?_, ?_, ?_⟩
  · intro e he
    simp [MetricVec.getMetricSparse, he]
  · intro he
    simp [MetricVec.getMetricSparse, entryOrDefault, he]
  · intro r m' hres u e he
    cases hid : m id with
    | some e0 =>
      simp [MetricVec.getMetricSparse, hid] at hres
      rw [← hres.2]
      exact he
    | none =>
      simp [MetricVec.getMetricSparse, entryOrDefault, hid] at hres
      rw [← hres.2]
      by_cases hu : u = id
      · rw [hu] at he
        rw [he] at hid
        exact absurd hid (by simp)
      · simp [hu, he]

/-- C4 witness: first-time creation at identity 5 in an empty sparse map
with default value 7: the callback sees the default and the map afterwards
stores exactly that entry. -/
theorem getMetricSparse_spec_witness :
    ((fun _ : Nat => (none : Option Nat)) 5 = none) ∧
      MetricVec.getMetricSparse 7 (fun _ => none) 5 (fun v => v + 1) =
        some (8, fun u => if u = 5 then some 7 else none) :=
  ⟨rfl, (getMetricSparse_spec 7 (fun _ => none) 5 (fun v => v + 1)).2.1 rfl⟩

/-- C10: for every starting state, bucket index and observed value,
`HistogramStateInner::observe` and `HistogramStateInner::observe_mut`
produce identical resulting state, and consequently `HistogramRef::observe`
and `HistogramMut::observe` agree as state transformations for every
value. -/
theorem observe_agrees_observe_mut :
    (∀ (st : HistogramStateInner) (bucket : Nat) (x : ℚ),
        HistogramStateInner.observe st bucket x =
          HistogramStateInner.observe_mut st bucket x) ∧
      ∀ (le : List ℚ) (st : HistogramStateInner) (x : ℚ),
        HistogramRef.observe le st x = HistogramMut.observe le st x := by
  have h1 : ∀ (st : HistogramStateInner) (bucket : Nat) (x : ℚ),
      HistogramStateInner.observe st bucket x =
        HistogramStateInner.observe_mut st bucket x := fun _ _ _ => rfl
  exact ⟨h1, fun le st x => h1 st (bucketIndex le x) x⟩

/-- C9: the observe hot path never aborts: the partition point over `N`
thresholds is at most `N`, so the `assert bucket <= N` holds and the
`unwrap`/`expect` of the sum's `fetch_update` is unreachable (its closure
always returns `Some`); the same holds for the exclusive-access path and for
the superseded `lib.rs` observe.  (`CounterRef::inc`/`inc_by` are a single
infallible `fetch_add`, total by definition in this model.) -/
theorem hot_path_no_abort (le : List ℚ) (st : HistogramStateInner) (x : ℚ)
    (hN : st.buckets.length = le.length) :
    (HistogramRef.observe le st x).isSome = true ∧
      (HistogramMut.observe le st x).isSome = true ∧
      ∀ (le2 : List F64) (st2 : LibHistogramState) (x2 : F64),
        (LibHistogramState.observe le2 st2 x2).isSome = true := by
  have hassert : bucketIndex le x ≤ st.buckets.length := by
    rw [hN]
    exact takeWhile_length_le _ _
  refine ⟨?_, ?_, fun le2 st2 x2 => rfl⟩
  · simp only [HistogramRef.observe, HistogramStateInner.observe,
      if_pos hassert, fetchUpdate]
    rfl
  · simp only [HistogramMut.observe, HistogramStateInner.observe_mut,
      if_pos hassert]
    rfl

/-- C9 witness: one threshold, matching bucket count, observation 0. -/
theorem hot_path_no_abort_witness :
    (HistogramStateInner.mk [0] 0 0).buckets.length = ([(1 : ℚ)]).length ∧
      ((HistogramRef.observe [1] (HistogramStateInner.mk [0] 0 0) 0).isSome = true ∧
        (HistogramMut.observe [1] (HistogramStateInner.mk [0] 0 0) 0).isSome = true ∧
        ∀ (le2 : List F64) (st2 : LibHistogramState) (x2 : F64),
          (LibHistogramState.observe le2 st2 x2).isSome = true) :=
  ⟨rfl, hot_path_no_abort [1] (HistogramStateInner.mk [0] 0 0) 0 rfl⟩

/-- C1: with strictly increasing thresholds, a single `observe(x)` on the
canonical histogram increments exactly one hit counter: the bucket at the
smallest index `i` with `x <= le[i]` (conjuncts 4 and 5 make `bucketIndex`
that smallest index), or the overflow counter when no threshold qualifies;
no other bucket counter changes. -/
theorem observe_single_bucket (le : List ℚ) (st : HistogramStateInner) (x : ℚ)
    (hsorted : List.Chain' (fun a b : ℚ => a < b) le)
    (hN : st.buckets.length = le.length) :
    ∃ st', HistogramRef.observe le st x = some st' ∧
      st'.buckets.length = st.buckets.length ∧
      st'.sum = st.sum + x ∧
      (∀ i, i < le.length → x ≤ le.getD i 0 → bucketIndex le x ≤ i) ∧
      (bucketIndex le x < le.length →
        x ≤ le.getD (bucketIndex le x) 0 ∧
        st'.inf = st.inf ∧
        ∀ j, j < st.buckets.length →
          st'.buckets.getD j 0 =
            st.buckets.getD j 0 + (if j = bucketIndex le x then 1 else 0)) ∧
      (le.length ≤ bucketIndex le x →
        st'.inf = st.inf + 1 ∧
        ∀ j, j < st.buckets.length →
          st'.buckets.getD j 0 = st.buckets.getD j 0) := by
  have hEq : bucketIndex le x =
      (le.takeWhile fun t => decide (t < x)).length := rfl
  have hble : bucketIndex le x ≤ le.length := by
    rw [hEq]
    exact takeWhile_length_le _ _
  have hassert : bucketIndex le x ≤ st.buckets.length := by
    rw [hN]
    exact hble
  have hsmall : ∀ i, i < le.length → x ≤ le.getD i 0 → bucketIndex le x ≤ i := by
    intro i hi hxi
    by_contra hc
    push_neg at hc
    have hpred := takeWhile_pred_true (fun t => decide (t < x)) le 0 i (hEq ▸ hc)
    rw [decide_eq_true_eq] at hpred
    exact absurd hxi (not_le.mpr hpred)
  by_cases hlt : bucketIndex le x < st.buckets.length
  · refine ⟨{ st with
        buckets := st.buckets.set (bucketIndex le x)
          (st.buckets.getD (bucketIndex le x) 0 + 1),
        sum := st.sum + x }, ?_, ?_, rfl, hsmall, ?_, ?_⟩
    · simp only [HistogramRef.observe, HistogramStateInner.observe,
        if_pos hassert, if_pos hlt, fetchUpdate]
    · simp [List.length_set]
    · intro hltle
      refine ⟨?_, rfl, ?_⟩
      · have hpred := takeWhile_pred_false (fun t => decide (t < x)) le 0
          (hEq ▸ hltle)
        rw [decide_eq_false_iff_not] at hpred
        rw [hEq]
        exact not_lt.mp hpred
      · intro j hj
        rw [getD_set st.buckets (bucketIndex le x) j _ 0 hlt hj]
        by_cases hjb : j = bucketIndex le x
        · subst hjb
          simp
        · simp [hjb]
    · intro h
      rw [hN] at hlt
      exact absurd h (by omega)
  · refine ⟨{ st with inf := st.inf + 1, sum := st.sum + x }, ?_, rfl, rfl,
      hsmall, ?_, ?_⟩
    · simp only [HistogramRef.observe, HistogramStateInner.observe,
        if_pos hassert, if_neg hlt, fetchUpdate]
    · intro h
      rw [hN] at hlt
      exact absurd h (by omega)
    · intro _
      exact ⟨rfl, fun j hj => rfl⟩

/-- C1 witness: thresholds `[1, 3]`, two zeroed buckets, observation 2. -/
theorem observe_single_bucket_witness :
    List.Chain' (fun a b : ℚ => a < b) [1, 3] ∧
      (HistogramStateInner.mk [0, 0] 0 0).buckets.length =
        ([1, 3] : List ℚ).length ∧
      ∃ st', HistogramRef.observe [1, 3] (HistogramStateInner.mk [0, 0] 0 0) 2 =
        some st' :=
  ⟨by norm_num [List.chain'_cons, List.chain'_singleton], rfl, by
    obtain ⟨st', h, -, -, -, -, -⟩ :=
      observe_single_bucket [1, 3] (HistogramStateInner.mk [0, 0] 0 0) 2
        (by norm_num [List.chain'_cons, List.chain'_singleton]) rfl
    exact ⟨st', h⟩⟩
